import Mathlib

/-!
Verification of the core of the `cogent` agent against its natural-language
specification.  The definitions below are a shallow embedding of the
TypeScript sources:

* `src/reasoning/mode-selector.ts` (`ModeSelector.selectMode`),
* `src/context.ts` (`ContextManager`),
* `src/security/approval.ts` (`ApprovalSystem.needsApproval`),
* `src/reasoning/react.ts` (`ReActAgent.run`, `generateTextWithRetry`),
* `src/agent.ts` (`Agent.run`).

JavaScript strings are modelled through their character lists, and the JS
string primitives used by the sources (`includes`, `split`, `trim`,
`toLowerCase`) are re-implemented structurally so that concrete runs reduce
inside the kernel.
-/

namespace Cogent

/-! ## JS string primitives -/

/-- Is `pat` a leading segment of `s`?  (Helper for JS `String.includes`.) -/
def charsHasPre : List Char → List Char → Bool
  | [], _ => true
  | _ :: _, [] => false
  | a :: ps, b :: ss => a == b && charsHasPre ps ss

/-- Does `pat` occur contiguously inside `s`?  (JS `String.includes`.) -/
def charsContains : List Char → List Char → Bool
  | s, pat =>
    if charsHasPre pat s then true
    else
      match s with
      | [] => false
      | _ :: rest => charsContains rest pat

/-- JS `s.includes(pat)`. -/
def strContains (s pat : String) : Bool :=
  charsContains s.data pat.data

/-- Find the first occurrence of (non-empty) `sep`: returns the characters
before it and the characters after it. -/
def findSplit (sep : List Char) : List Char → Option (List Char × List Char)
  | [] => if charsHasPre sep [] then some ([], []) else none
  | c :: rest =>
    if charsHasPre sep (c :: rest) then some ([], (c :: rest).drop sep.length)
    else (findSplit sep rest).map (fun p => (c :: p.1, p.2))

/-- Split on every non-overlapping occurrence of `sep`, left to right
(the behaviour of JS `String.split` for a non-empty separator).  `fuel`
bounds the recursion; it is always called with more fuel than occurrences. -/
def splitAllGo (sep : List Char) : Nat → List Char → List (List Char)
  | 0, s => [s]
  | fuel + 1, s =>
    match findSplit sep s with
    | none => [s]
    | some (b, a) => b :: splitAllGo sep fuel a

/-- JS `s.split(sep)` for a non-empty separator. -/
def jsSplit (s sep : String) : List String :=
  (splitAllGo sep.data (s.data.length + 1) s.data).map (fun cs => String.mk cs)

/-- The whitespace characters stripped by JS `String.trim` that occur in this
development (space, tab, carriage return, newline). -/
def jsIsWs (c : Char) : Bool :=
  c == ' ' || c == '\t' || c == '\r' || c == '\n'

/-- JS `s.trim()`. -/
def jsTrim (s : String) : String :=
  String.mk (((s.data.dropWhile jsIsWs).reverse.dropWhile jsIsWs).reverse)

/-- JS `s.toLowerCase()` (ASCII case folding suffices for the keyword lists). -/
def jsToLower (s : String) : String :=
  String.mk (s.data.map Char.toLower)

/-! ## Mode selector (`src/reasoning/mode-selector.ts`) -/

/-- The `ReasoningMode` enum of `src/reasoning/types.ts`. -/
inductive ReasoningMode
  | REACT
  | PLAN_SOLVE
  | REFLECTION
deriving DecidableEq, Repr

/-- Keyword list of `ModeSelector.isSimpleQuery`. -/
def simpleKeywords : List String :=
  ["read", "show", "display", "what is", "explain", "find"]

/-- Keyword list of `ModeSelector.isMultiFileRefactoring`. -/
def refactorKeywords : List String :=
  ["refactor", "restructure", "reorganize", "multiple files", "entire codebase"]

/-- Keyword list of `ModeSelector.isCodeReview`. -/
def reviewKeywords : List String :=
  ["review", "improve", "optimize", "enhance", "better"]

/-- `ModeSelector.isSimpleQuery`. -/
def isSimpleQuery (task : String) : Bool :=
  simpleKeywords.any (fun k => strContains (jsToLower task) k)

/-- `ModeSelector.isMultiFileRefactoring`. -/
def isMultiFileRefactoring (task : String) : Bool :=
  refactorKeywords.any (fun k => strContains (jsToLower task) k)

/-- `ModeSelector.isCodeReview`. -/
def isCodeReview (task : String) : Bool :=
  reviewKeywords.any (fun k => strContains (jsToLower task) k)

/-- `ModeSelector.selectMode`.  A present `userPreference` (all enum values
are truthy JS strings) is returned unchanged; otherwise the predicates are
consulted in the source order: simple query, multi-file refactoring, code
review, default. -/
def selectMode (task : String) (userPreference : Option ReasoningMode) : ReasoningMode :=
  match userPreference with
  | some p => p
  | none =>
    if isSimpleQuery task then .REACT
    else if isMultiFileRefactoring task then .PLAN_SOLVE
    else if isCodeReview task then .REFLECTION
    else .REACT

/-- C2, counterexample: the task "read, refactor and review" contains
refactor-vocabulary ("refactor") and review-vocabulary ("review"), yet
`selectMode` returns reactive tool-use, because the lookup-vocabulary
check (`isSimpleQuery`, here matching "read") runs first in the source. -/
theorem C2_counterexample :
    isMultiFileRefactoring "read, refactor and review" = true ∧
    isCodeReview "read, refactor and review" = true ∧
    selectMode "read, refactor and review" none = ReasoningMode.REACT ∧
    selectMode "read, refactor and review" none ≠ ReasoningMode.PLAN_SOLVE := by
  refine ⟨by decide, by decide, by decide, by decide⟩

/-- C2, amended: with no user override the keyword categories are applied in
the fixed source order lookup-vocabulary, then refactor-vocabulary, then
review-vocabulary, then default; in particular every task containing
refactor-vocabulary (with or without review-vocabulary) but no
lookup-vocabulary yields plan-then-solve. -/
theorem C2_amended (task : String)
    (hs : isSimpleQuery task = false)
    (hr : isMultiFileRefactoring task = true) :
    selectMode task none = ReasoningMode.PLAN_SOLVE := by
  simp [selectMode, hs, hr]

/-- C2, witness for the amended theorem at the task
"refactor and review the api" (which contains refactor- and
review-vocabulary and no lookup-vocabulary). -/
theorem C2_witness :
    isCodeReview "refactor and review the api" = true ∧
    selectMode "refactor and review the api" none = ReasoningMode.PLAN_SOLVE :=
  ⟨by decide, C2_amended "refactor and review the api" (by decide) (by decide)⟩

/-! ## Context manager (`src/context.ts`) -/

/-- Values of the `ContextPriority` enum. -/
def CRITICAL : Nat := 100
/-- Values of the `ContextPriority` enum. -/
def HIGH : Nat := 80
/-- Values of the `ContextPriority` enum. -/
def MEDIUM : Nat := 60
/-- Values of the `ContextPriority` enum. -/
def LOW : Nat := 40
/-- Values of the `ContextPriority` enum. -/
def VERY_LOW : Nat := 20

/-- A `ContextItem` of `src/context.ts`.  The `Date` timestamp is modelled
as a natural-number clock value supplied by the caller of each operation
(the source takes `new Date()`; callers below pass strictly increasing
clocks, matching successive wall-clock instants). -/
structure ContextItem where
  content : String
  priority : Nat
  timestamp : Nat
  tokens : Nat
deriving DecidableEq, Repr

/-- The mutable state of a `ContextManager`: its item array and ceiling. -/
structure CMState where
  items : List ContextItem
  maxTokens : Nat
deriving DecidableEq, Repr

/-- A fresh `new ContextManager(maxTokens)`. -/
def CMState.new (maxTokens : Nat) : CMState := ⟨[], maxTokens⟩

/-- `ContextManager.estimateTokens`: `Math.ceil(text.length / 4)`. -/
def estimateTokens (text : String) : Nat :=
  (text.length + 3) / 4

/-- Sum of the token fields of a list of items. -/
def sumTk (l : List ContextItem) : Nat :=
  (l.map (fun it => it.tokens)).sum

/-- `ContextManager.getCurrentTokens`: `reduce((sum, item) => sum + item.tokens, 0)`. -/
def getCurrentTokens (st : CMState) : Nat :=
  st.items.foldl (fun sum it => sum + it.tokens) 0

/-- `ContextManager.getContext`: contents in stored order joined by blank lines. -/
def getContext (st : CMState) : String :=
  String.intercalate "\n\n" (st.items.map (fun it => it.content))

/-- Stable insertion used to model `Array.prototype.sort` (stable since
ES2019): the new element is placed after every element `y` with `le y x`,
i.e. after every element the comparator orders before-or-equal to it. -/
def insSorted (le : ContextItem → ContextItem → Bool) (x : ContextItem) :
    List ContextItem → List ContextItem
  | [] => [x]
  | y :: ys => if le y x then y :: insSorted le x ys else x :: y :: ys

/-- Stable sort by the total preorder `le` (elements inserted left to
right, each landing after earlier equals): the unique output of any stable
sort with this comparator, hence a faithful model of the JS `sort` calls. -/
def stableSort (le : ContextItem → ContextItem → Bool) (l : List ContextItem) :
    List ContextItem :=
  l.foldl (fun acc x => insSorted le x acc) []

/-- The comparator `(a, b) => a.priority - b.priority` of
`ContextManager.evictAndAdd` as a preorder: `y` may stay before `x`. -/
def ascLe (y x : ContextItem) : Bool :=
  y.priority ≤ x.priority

/-- The comparator of `ContextManager.compress`
(`b.priority - a.priority`, ties `b.timestamp - a.timestamp`) as a
preorder: `y` may stay before `x`. -/
def descLe (y x : ContextItem) : Bool :=
  if y.priority = x.priority then x.timestamp ≤ y.timestamp
  else x.priority < y.priority

/-- The eviction scan of `ContextManager.evictAndAdd`: walk the
ascending-sorted items; every item of strictly lower priority than the
incoming one is marked for removal and its tokens are freed, stopping as
soon as the projected total fits.  Returns the surviving items (in order)
and the freed token count.  The fit test is the source's
`getCurrentTokens() - freedTokens + tokens <= maxTokens` over JS numbers,
taken here over `Int`. -/
def evictLoop (cur tokens maxT p : Nat) :
    List ContextItem → Nat → List ContextItem × Nat
  | [], freed => ([], freed)
  | it :: rest, freed =>
    if it.priority < p then
      let freed' := freed + it.tokens
      if (cur : Int) - freed' + tokens ≤ (maxT : Int) then (rest, freed')
      else evictLoop cur tokens maxT p rest freed'
    else
      let r := evictLoop cur tokens maxT p rest freed
      (it :: r.1, r.2)

/-- `ContextManager.evictAndAdd`.  Note that the in-place
`this.items.sort(...)` persists even when the method returns `false`. -/
def evictAndAdd (st : CMState) (content : String) (p tokens now : Nat) :
    CMState × Bool :=
  let sorted := stableSort ascLe st.items
  let cur := sumTk sorted
  let r := evictLoop cur tokens st.maxTokens p sorted 0
  if (cur : Int) - r.2 + tokens ≤ (st.maxTokens : Int) then
    (⟨r.1 ++ [⟨content, p, now, tokens⟩], st.maxTokens⟩, true)
  else
    (⟨sorted, st.maxTokens⟩, false)

/-- `ContextManager.addItem`. -/
def addItem (st : CMState) (content : String) (p now : Nat) : CMState × Bool :=
  let tokens := estimateTokens content
  if getCurrentTokens st + tokens ≤ st.maxTokens then
    (⟨st.items ++ [⟨content, p, now, tokens⟩], st.maxTokens⟩, true)
  else
    evictAndAdd st content p tokens now

/-- The compaction budget of `ContextManager.compress`, i.e.
`Math.floor(this.maxTokens * 0.7)`.  The source computes it in IEEE double
arithmetic; it is modelled as `7 * n / 10`.  Every general theorem below
depends on this value only through `compressTarget n ≤ n`, which the double
computation also satisfies, and concrete inputs use ceilings at which the
two computations agree. -/
def compressTarget (n : Nat) : Nat :=
  7 * n / 10

/-- The keep scan of `ContextManager.compress`: traverse the sorted items,
keeping each item whose tokens still fit the remaining budget and
discarding (but scanning past) each item that does not. -/
def greedyKeep (target : Nat) (cur : Nat) : List ContextItem → List ContextItem
  | [] => []
  | it :: rest =>
    if cur + it.tokens ≤ target then it :: greedyKeep target (cur + it.tokens) rest
    else greedyKeep target cur rest

/-- `ContextManager.compress`: stable-sort by (priority desc, timestamp
desc), then keep greedily within the compaction budget. -/
def compress (st : CMState) : CMState :=
  ⟨greedyKeep (compressTarget st.maxTokens) 0 (stableSort descLe st.items), st.maxTokens⟩

/-- `ContextManager.clear`. -/
def clear (st : CMState) : CMState :=
  ⟨[], st.maxTokens⟩

/-- Number of the leading `n` eviction candidates (priority `< p`) removed:
`dropCands p k l` deletes the first `k` elements of `l` whose priority is
strictly below `p`, keeping everything else in order. -/
def dropCands (p : Nat) : Nat → List ContextItem → List ContextItem
  | _, [] => []
  | 0, l => l
  | k + 1, it :: rest =>
    if it.priority < p then dropCands p k rest
    else it :: dropCands p (k + 1) rest

/-! ### Arithmetic and permutation lemmas for the context manager -/

lemma sumTk_nil : sumTk [] = 0 := rfl

lemma sumTk_cons (it : ContextItem) (l : List ContextItem) :
    sumTk (it :: l) = it.tokens + sumTk l := by
  simp [sumTk]

lemma sumTk_append (l₁ l₂ : List ContextItem) :
    sumTk (l₁ ++ l₂) = sumTk l₁ + sumTk l₂ := by
  simp [sumTk]

lemma sumTk_perm {l₁ l₂ : List ContextItem} (h : l₁.Perm l₂) :
    sumTk l₁ = sumTk l₂ := by
  simpa [sumTk] using (h.map (fun it => it.tokens)).sum_eq

lemma getCurrentTokens_eq (st : CMState) : getCurrentTokens st = sumTk st.items := by
  have h : ∀ (l : List ContextItem) (n : Nat),
      l.foldl (fun sum it => sum + it.tokens) n = n + sumTk l := by
    intro l
    induction l with
    | nil => intro n; simp [sumTk]
    | cons it rest ih => intro n; simp [List.foldl, ih, sumTk_cons]; omega
  simpa [getCurrentTokens] using h st.items 0

lemma insSorted_perm (le : ContextItem → ContextItem → Bool) (x : ContextItem)
    (l : List ContextItem) : (insSorted le x l).Perm (x :: l) := by
  induction l with
  | nil => simp [insSorted]
  | cons y ys ih =>
    by_cases h : le y x = true
    · simpa [insSorted, h] using ((ih.cons y).trans (List.Perm.swap x y ys))
    · simp [insSorted, h]

lemma stableSort_perm (le : ContextItem → ContextItem → Bool) (l : List ContextItem) :
    (stableSort le l).Perm l := by
  have h : ∀ (l acc : List ContextItem),
      (l.foldl (fun acc x => insSorted le x acc) acc).Perm (acc ++ l) := by
    intro l
    induction l with
    | nil => intro acc; simp
    | cons x xs ih =>
      intro acc
      have h1 := ih (insSorted le x acc)
      have h2 : (insSorted le x acc ++ xs).Perm (acc ++ x :: xs) := by
        have := (insSorted_perm le x acc).append_right xs
        exact this.trans (List.perm_middle.symm)
      simpa [List.foldl] using h1.trans h2
  simpa [stableSort] using h l []

lemma sumTk_stableSort (le : ContextItem → ContextItem → Bool) (l : List ContextItem) :
    sumTk (stableSort le l) = sumTk l :=
  sumTk_perm (stableSort_perm le l)

lemma dropCands_zero (p : Nat) (l : List ContextItem) : dropCands p 0 l = l := by
  cases l <;> rfl

lemma dropCands_cons_keep (p k : Nat) (it : ContextItem) (rest : List ContextItem)
    (h : ¬ it.priority < p) : dropCands p k (it :: rest) = it :: dropCands p k rest := by
  cases k with
  | zero => rw [dropCands_zero, dropCands_zero]
  | succ k => simp [dropCands, h]

/-- Token accounting of `dropCands`: the removed tokens are exactly those
of the first `k` eviction candidates. -/
lemma sumTk_dropCands (p : Nat) :
    ∀ (l : List ContextItem) (k : Nat),
      sumTk l =
        sumTk (dropCands p k l) +
          sumTk ((l.filter (fun it => decide (it.priority < p))).take k) := by
  intro l
  induction l with
  | nil => intro k; simp [dropCands, sumTk]
  | cons it rest ih =>
    intro k
    by_cases h : it.priority < p
    · have hfc : (it :: rest).filter (fun it => decide (it.priority < p)) =
          it :: rest.filter (fun it => decide (it.priority < p)) :=
        List.filter_cons_of_pos (by simpa using h)
      cases k with
      | zero => simp [dropCands_zero, sumTk]
      | succ k =>
        rw [hfc]
        simp only [dropCands, if_pos h, List.take_succ_cons, sumTk_cons]
        have := ih k
        omega
    · have hfc : (it :: rest).filter (fun it => decide (it.priority < p)) =
          rest.filter (fun it => decide (it.priority < p)) :=
        List.filter_cons_of_neg (by simpa using h)
      rw [dropCands_cons_keep p k it rest h, hfc]
      simp only [sumTk_cons]
      have := ih k
      omega

/-- The source's fit test `current - freed + tokens <= maxTokens` (over JS
numbers, i.e. over `Int`) as a natural-number statement. -/
def fitsN (cur tokens maxT freed : Nat) : Prop :=
  cur + tokens ≤ maxT + freed

lemma fit_int_iff (cur tokens maxT freed : Nat) :
    ((cur : Int) - freed + tokens ≤ (maxT : Int)) ↔ fitsN cur tokens maxT freed := by
  unfold fitsN; omega

/-- Token accounting of the eviction scan: freed plus surviving tokens is
invariant. -/
lemma evictLoop_sum (cur tokens maxT p : Nat) :
    ∀ (l : List ContextItem) (freed : Nat),
      (evictLoop cur tokens maxT p l freed).2 +
        sumTk (evictLoop cur tokens maxT p l freed).1 = freed + sumTk l := by
  intro l
  induction l with
  | nil => intro freed; simp [evictLoop, sumTk]
  | cons it rest ih =>
    intro freed
    by_cases h : it.priority < p
    · by_cases hf : fitsN cur tokens maxT (freed + it.tokens)
      · have hfi := (fit_int_iff cur tokens maxT (freed + it.tokens)).2 hf
        simp only [evictLoop, if_pos h, if_pos hfi, sumTk_cons]
        omega
      · have hfi := fun hcon => hf ((fit_int_iff cur tokens maxT (freed + it.tokens)).1 hcon)
        simp only [evictLoop, if_pos h, if_neg hfi]
        have := ih (freed + it.tokens)
        simp only [sumTk_cons]
        omega
    · simp only [evictLoop, if_neg h]
      have := ih freed
      simp only [sumTk_cons]
      omega

/-- Full characterisation of the eviction scan when the incoming item does
not fit at entry: some count `k` of leading candidates (ascending priority,
ties oldest first, as ordered in the input) is removed, `k` is minimal
among fitting counts, and if the scan stopped before exhausting the
candidates then the projected total fits. -/
lemma evictLoop_spec (cur tokens maxT p : Nat) :
    ∀ (l : List ContextItem) (freed : Nat), ¬ fitsN cur tokens maxT freed →
      ∃ k, k ≤ (l.filter (fun it => decide (it.priority < p))).length ∧
        evictLoop cur tokens maxT p l freed =
          (dropCands p k l,
           freed + sumTk ((l.filter (fun it => decide (it.priority < p))).take k)) ∧
        (∀ j, j < k →
          ¬ fitsN cur tokens maxT
              (freed + sumTk ((l.filter (fun it => decide (it.priority < p))).take j))) ∧
        (k < (l.filter (fun it => decide (it.priority < p))).length →
          fitsN cur tokens maxT
            (freed + sumTk ((l.filter (fun it => decide (it.priority < p))).take k))) := by
  intro l
  induction l with
  | nil =>
    intro freed hno
    refine ⟨0, by simp, ?_, by omega, by simp [sumTk]⟩
    simp [evictLoop, dropCands, sumTk]
  | cons it rest ih =>
    intro freed hno
    by_cases h : it.priority < p
    · have hfc : (it :: rest).filter (fun it => decide (it.priority < p)) =
          it :: rest.filter (fun it => decide (it.priority < p)) :=
        List.filter_cons_of_pos (by simpa using h)
      by_cases hf : fitsN cur tokens maxT (freed + it.tokens)
      · -- the scan stops right after removing `it`
        refine ⟨1, by rw [hfc]; simp, ?_, ?_, ?_⟩
        · have hfi : (cur : Int) - (freed + it.tokens) + tokens ≤ (maxT : Int) :=
            (fit_int_iff cur tokens maxT (freed + it.tokens)).2 hf
          rw [hfc]
          simp [evictLoop, if_pos h, hfi, dropCands, dropCands_zero,
            sumTk_cons, sumTk_nil]
        · intro j hj
          interval_cases j
          simpa [sumTk] using hno
        · intro _
          rw [hfc]
          simpa [sumTk_cons, sumTk_nil] using hf
      · -- `it` is removed and the scan continues
        have hfi := fun hcon => hf ((fit_int_iff cur tokens maxT (freed + it.tokens)).1 hcon)
        obtain ⟨k, hk, heq, hmin, hfit⟩ := ih (freed + it.tokens) hf
        refine ⟨k + 1, ?_, ?_, ?_, ?_⟩
        · rw [hfc]; simpa using Nat.succ_le_succ hk
        · have e1 : evictLoop cur tokens maxT p (it :: rest) freed =
              evictLoop cur tokens maxT p rest (freed + it.tokens) := by
            simp only [evictLoop, if_pos h, if_neg hfi]
          have e2 : dropCands p (k + 1) (it :: rest) = dropCands p k rest := by
            simp [dropCands, h]
          rw [hfc, e1, heq, e2, List.take_succ_cons, sumTk_cons]
          simp only [Prod.mk.injEq, true_and]
          omega
        · intro j hj
          cases j with
          | zero => simpa [sumTk] using hno
          | succ j =>
            have := hmin j (by omega)
            rw [hfc]
            simp only [List.take_succ_cons, sumTk_cons]
            unfold fitsN at this ⊢
            omega
        · intro hlt
          rw [hfc] at hlt ⊢
          simp only [List.length_cons] at hlt
          have := hfit (by omega)
          simp only [List.take_succ_cons, sumTk_cons]
          unfold fitsN at this ⊢
          omega
    · -- `it` survives and the scan continues unchanged
      have hfc : (it :: rest).filter (fun it => decide (it.priority < p)) =
          rest.filter (fun it => decide (it.priority < p)) :=
        List.filter_cons_of_neg (by simpa using h)
      obtain ⟨k, hk, heq, hmin, hfit⟩ := ih freed hno
      refine ⟨k, ?_, ?_, ?_, ?_⟩
      · rw [hfc]; exact hk
      · rw [hfc]
        simp only [evictLoop, if_neg h, heq, dropCands_cons_keep p k it rest h]
      · intro j hj
        rw [hfc]; exact hmin j hj
      · intro hlt
        rw [hfc] at hlt ⊢
        exact hfit hlt

lemma sumTk_take_le (l : List ContextItem) (k : Nat) : sumTk (l.take k) ≤ sumTk l := by
  conv_rhs => rw [← List.take_append_drop k l]
  rw [sumTk_append]
  omega

/-- Case analysis of `evictAndAdd`: either the post-eviction total fits and
the surviving items plus the new one are committed, or nothing is spliced
and the (sorted-in-place) items are kept with result `false`. -/
lemma evictAndAdd_cases (st : CMState) (content : String) (p tokens now : Nat) :
    (evictAndAdd st content p tokens now =
        (⟨(evictLoop (sumTk (stableSort ascLe st.items)) tokens st.maxTokens p
              (stableSort ascLe st.items) 0).1 ++ [⟨content, p, now, tokens⟩],
          st.maxTokens⟩, true) ∧
      fitsN (sumTk (stableSort ascLe st.items)) tokens st.maxTokens
        (evictLoop (sumTk (stableSort ascLe st.items)) tokens st.maxTokens p
            (stableSort ascLe st.items) 0).2) ∨
    (evictAndAdd st content p tokens now =
        (⟨stableSort ascLe st.items, st.maxTokens⟩, false) ∧
      ¬ fitsN (sumTk (stableSort ascLe st.items)) tokens st.maxTokens
        (evictLoop (sumTk (stableSort ascLe st.items)) tokens st.maxTokens p
            (stableSort ascLe st.items) 0).2) := by
  by_cases hchk : fitsN (sumTk (stableSort ascLe st.items)) tokens st.maxTokens
      (evictLoop (sumTk (stableSort ascLe st.items)) tokens st.maxTokens p
          (stableSort ascLe st.items) 0).2
  · left
    have hi := (fit_int_iff _ tokens st.maxTokens _).2 hchk
    exact ⟨by simp only [evictAndAdd, if_pos hi], hchk⟩
  · right
    have hi := fun hcon => hchk ((fit_int_iff _ tokens st.maxTokens _).1 hcon)
    exact ⟨by simp only [evictAndAdd, if_neg hi], hchk⟩

/-- C3, counterexample: ceiling 2; the manager holds a HIGH item (added
first) and a LOW item.  Adding a MEDIUM item of 2 tokens cannot fit even
after evicting the LOW item, so `addItem` returns `false` — but the failed
call has re-sorted the stored items into ascending-priority order, so the
observable state (and hence `getContext`) changes, contradicting the
claimed "leaves the manager's observable state unchanged". -/
theorem C3_counterexample :
    (addItem (addItem (addItem (CMState.new 2) "aaaa" HIGH 0).1 "bbbb" LOW 1).1
        "cccccccc" MEDIUM 2).2 = false ∧
    (addItem (addItem (addItem (CMState.new 2) "aaaa" HIGH 0).1 "bbbb" LOW 1).1
        "cccccccc" MEDIUM 2).1.items ≠
      (addItem (addItem (CMState.new 2) "aaaa" HIGH 0).1 "bbbb" LOW 1).1.items ∧
    getContext
        (addItem (addItem (addItem (CMState.new 2) "aaaa" HIGH 0).1 "bbbb" LOW 1).1
          "cccccccc" MEDIUM 2).1 ≠
      getContext (addItem (addItem (CMState.new 2) "aaaa" HIGH 0).1 "bbbb" LOW 1).1 := by
  refine ⟨by decide, by decide, by decide⟩

/-- C3, amended: `addItem` accepts iff the item fits after evicting (all)
strictly-lower-priority items; when it fits directly the item is appended;
when even full eviction cannot make room it returns `false`, evicts
nothing and adds nothing — the retained items are exactly the old ones
(a permutation), though the stored order becomes the ascending
stable-sorted order, so `getContext` output may change; when eviction
suffices, exactly the minimal number of candidates is removed, scanned
lowest-priority-first with ties oldest-first, and the new item is
accepted. -/
theorem C3_amended (st : CMState) (content : String) (p now : Nat) :
    (getCurrentTokens st + estimateTokens content ≤ st.maxTokens →
      (addItem st content p now).2 = true ∧
      (addItem st content p now).1.items =
        st.items ++ [⟨content, p, now, estimateTokens content⟩]) ∧
    (¬ getCurrentTokens st + estimateTokens content ≤ st.maxTokens →
     st.maxTokens +
        sumTk ((stableSort ascLe st.items).filter (fun it => decide (it.priority < p))) <
        getCurrentTokens st + estimateTokens content →
      (addItem st content p now).2 = false ∧
      (addItem st content p now).1.items = stableSort ascLe st.items ∧
      (addItem st content p now).1.items.Perm st.items) ∧
    (¬ getCurrentTokens st + estimateTokens content ≤ st.maxTokens →
     getCurrentTokens st + estimateTokens content ≤
        st.maxTokens +
          sumTk ((stableSort ascLe st.items).filter (fun it => decide (it.priority < p))) →
      (addItem st content p now).2 = true ∧
      ∃ k, k ≤ ((stableSort ascLe st.items).filter (fun it => decide (it.priority < p))).length ∧
        (addItem st content p now).1.items =
          dropCands p k (stableSort ascLe st.items) ++
            [⟨content, p, now, estimateTokens content⟩] ∧
        getCurrentTokens st + estimateTokens content ≤
          st.maxTokens +
            sumTk (((stableSort ascLe st.items).filter
              (fun it => decide (it.priority < p))).take k) ∧
        ∀ j, j < k →
          st.maxTokens +
              sumTk (((stableSort ascLe st.items).filter
                (fun it => decide (it.priority < p))).take j) <
            getCurrentTokens st + estimateTokens content) := by
  have hcur : sumTk (stableSort ascLe st.items) = getCurrentTokens st := by
    rw [getCurrentTokens_eq, sumTk_stableSort]
  refine ⟨?_, ?_, ?_⟩
  · intro hfit
    simp only [addItem, if_pos hfit]
    exact ⟨trivial, trivial⟩
  · intro hno hbig
    have hno0 : ¬ fitsN (sumTk (stableSort ascLe st.items)) (estimateTokens content)
        st.maxTokens 0 := by
      unfold fitsN; omega
    obtain ⟨k, hk, heq, hmin, hfit⟩ :=
      evictLoop_spec (sumTk (stableSort ascLe st.items)) (estimateTokens content)
        st.maxTokens p (stableSort ascLe st.items) 0 hno0
    have hnochk : ¬ fitsN (sumTk (stableSort ascLe st.items)) (estimateTokens content)
        st.maxTokens
        (evictLoop (sumTk (stableSort ascLe st.items)) (estimateTokens content)
            st.maxTokens p (stableSort ascLe st.items) 0).2 := by
      rw [heq]
      have htake := sumTk_take_le
        ((stableSort ascLe st.items).filter (fun it => decide (it.priority < p))) k
      unfold fitsN
      omega
    rcases evictAndAdd_cases st content p (estimateTokens content) now with
      ⟨_, hchk⟩ | ⟨hres, _⟩
    · exact absurd hchk hnochk
    · simp only [addItem, if_neg hno, hres]
      exact ⟨trivial, trivial, stableSort_perm ascLe st.items⟩
  · intro hno hsuff
    have hno0 : ¬ fitsN (sumTk (stableSort ascLe st.items)) (estimateTokens content)
        st.maxTokens 0 := by
      unfold fitsN; omega
    obtain ⟨k, hk, heq, hmin, hfit⟩ :=
      evictLoop_spec (sumTk (stableSort ascLe st.items)) (estimateTokens content)
        st.maxTokens p (stableSort ascLe st.items) 0 hno0
    have hchk : fitsN (sumTk (stableSort ascLe st.items)) (estimateTokens content)
        st.maxTokens
        (evictLoop (sumTk (stableSort ascLe st.items)) (estimateTokens content)
            st.maxTokens p (stableSort ascLe st.items) 0).2 := by
      rw [heq]
      rcases Nat.lt_or_ge k ((stableSort ascLe st.items).filter
          (fun it => decide (it.priority < p))).length with hlt | hge
      · simpa using hfit hlt
      · have hkeq : k = ((stableSort ascLe st.items).filter
            (fun it => decide (it.priority < p))).length := le_antisymm hk hge
        subst hkeq
        rw [List.take_length]
        unfold fitsN
        omega
    rcases evictAndAdd_cases st content p (estimateTokens content) now with
      ⟨hres, _⟩ | ⟨_, hnochk⟩
    · simp only [addItem, if_neg hno, hres]
      refine ⟨trivial, k, hk, ?_, ?_, ?_⟩
      · simp [heq]
      · have := hchk
        rw [heq] at this
        unfold fitsN at this
        omega
      · intro j hj
        have := hmin j hj
        unfold fitsN at this
        omega
    · exact absurd hchk hnochk

/-- C3, witness for the amended theorem: with ceiling 2 and items
HIGH("aaaa"), LOW("bbbb"), adding MEDIUM("cccc") (1 token) succeeds by
evicting exactly the LOW item. -/
theorem C3_witness :
    (addItem (addItem (addItem (CMState.new 2) "aaaa" HIGH 0).1 "bbbb" LOW 1).1
        "cccc" MEDIUM 2).2 = true := by
  have h := (C3_amended
    (addItem (addItem (CMState.new 2) "aaaa" HIGH 0).1 "bbbb" LOW 1).1
    "cccc" MEDIUM 2).2.2 (by decide) (by decide)
  exact h.1

/-! ### Compress and the budget invariant -/

lemma compressTarget_le (n : Nat) : compressTarget n ≤ n := by
  unfold compressTarget
  omega

lemma greedyKeep_sum (target : Nat) :
    ∀ (l : List ContextItem) (cur : Nat), cur ≤ target →
      cur + sumTk (greedyKeep target cur l) ≤ target := by
  intro l
  induction l with
  | nil => intro cur h; simpa [greedyKeep, sumTk] using h
  | cons it rest ih =>
    intro cur h
    by_cases hfit : cur + it.tokens ≤ target
    · have := ih (cur + it.tokens) hfit
      simp only [greedyKeep, if_pos hfit, sumTk_cons]
      omega
    · have := ih cur h
      simp only [greedyKeep, if_neg hfit]
      omega

lemma greedyKeep_sublist (target : Nat) :
    ∀ (l : List ContextItem) (cur : Nat), (greedyKeep target cur l).Sublist l := by
  intro l
  induction l with
  | nil => intro cur; simp [greedyKeep]
  | cons it rest ih =>
    intro cur
    by_cases hfit : cur + it.tokens ≤ target
    · simpa [greedyKeep, if_pos hfit] using (ih (cur + it.tokens)).cons₂ it
    · simpa [greedyKeep, if_neg hfit] using (ih cur).cons it

/-- Operations of the claimed sequences: `addItem`, `compress`, `clear`. -/
inductive CMOp
  | add (content : String) (priority : Nat)
  | compressOp
  | clearOp

/-- Apply one operation at clock value `now`. -/
def applyOp (st : CMState) (now : Nat) : CMOp → CMState
  | .add c p => (addItem st c p now).1
  | .compressOp => compress st
  | .clearOp => clear st

/-- Run a sequence of operations with a strictly increasing clock. -/
def runOps (st : CMState) (now : Nat) : List CMOp → CMState
  | [] => st
  | op :: rest => runOps (applyOp st now op) (now + 1) rest

/-- Run a sequence of `addItem` calls, collecting the returned booleans. -/
def addSeq (st : CMState) (now : Nat) : List (String × Nat) → CMState × List Bool
  | [] => (st, [])
  | (c, p) :: rest =>
    let r := addItem st c p now
    let r2 := addSeq r.1 (now + 1) rest
    (r2.1, r.2 :: r2.2)

/-- Every operation preserves the ceiling and the invariant
`sumTk items ≤ maxTokens`. -/
lemma applyOp_invariant (st : CMState) (now : Nat) (op : CMOp)
    (h : sumTk st.items ≤ st.maxTokens) :
    (applyOp st now op).maxTokens = st.maxTokens ∧
      sumTk (applyOp st now op).items ≤ st.maxTokens := by
  cases op with
  | clearOp => simp [applyOp, clear, sumTk]
  | compressOp =>
    refine ⟨rfl, ?_⟩
    have hg := greedyKeep_sum (compressTarget st.maxTokens)
      (stableSort descLe st.items) 0 (Nat.zero_le _)
    have ht := compressTarget_le st.maxTokens
    simp only [applyOp, compress]
    omega
  | add c p =>
    simp only [applyOp, addItem]
    by_cases hfit : getCurrentTokens st + estimateTokens c ≤ st.maxTokens
    · rw [if_pos hfit]
      refine ⟨rfl, ?_⟩
      rw [getCurrentTokens_eq] at hfit
      simp only [sumTk_append, sumTk_cons, sumTk_nil]
      omega
    · rw [if_neg hfit]
      have hsum := evictLoop_sum (sumTk (stableSort ascLe st.items)) (estimateTokens c)
        st.maxTokens p (stableSort ascLe st.items) 0
      rcases evictAndAdd_cases st c p (estimateTokens c) now with
        ⟨hres, hchk⟩ | ⟨hres, _⟩
      · rw [hres]
        refine ⟨rfl, ?_⟩
        unfold fitsN at hchk
        simp only [sumTk_append, sumTk_cons, sumTk_nil]
        omega
      · rw [hres]
        refine ⟨rfl, ?_⟩
        have := sumTk_stableSort ascLe st.items
        simpa [this] using h

lemma runOps_invariant (M : Nat) :
    ∀ (ops : List CMOp) (st : CMState) (now : Nat),
      st.maxTokens = M → sumTk st.items ≤ M →
      (runOps st now ops).maxTokens = M ∧ sumTk (runOps st now ops).items ≤ M := by
  intro ops
  induction ops with
  | nil => intro st now hM h; exact ⟨hM, h⟩
  | cons op rest ih =>
    intro st now hM h
    have hstep := applyOp_invariant st now op (hM ▸ h)
    exact ih (applyOp st now op) (now + 1) (hstep.1.trans hM) (hM ▸ hstep.2)

/-- When the whole batch fits the ceiling, every `addItem` takes the direct
accept branch. -/
lemma addSeq_all (adds : List (String × Nat)) :
    ∀ (st : CMState) (now : Nat),
      sumTk st.items + (adds.map (fun a => estimateTokens a.1)).sum ≤ st.maxTokens →
      (∀ b ∈ (addSeq st now adds).2, b = true) ∧
        (addSeq st now adds).1.maxTokens = st.maxTokens ∧
        sumTk (addSeq st now adds).1.items =
          sumTk st.items + (adds.map (fun a => estimateTokens a.1)).sum := by
  induction adds with
  | nil => intro st now h; simp [addSeq]
  | cons a rest ih =>
    intro st now h
    obtain ⟨c, p⟩ := a
    simp only [List.map_cons, List.sum_cons] at h
    have hfit : getCurrentTokens st + estimateTokens c ≤ st.maxTokens := by
      rw [getCurrentTokens_eq]
      omega
    have hstate : addItem st c p now =
        (⟨st.items ++ [⟨c, p, now, estimateTokens c⟩], st.maxTokens⟩, true) := by
      simp only [addItem, if_pos hfit]
    have hsum : sumTk (st.items ++ [⟨c, p, now, estimateTokens c⟩]) =
        sumTk st.items + estimateTokens c := by
      simp [sumTk_append, sumTk_cons, sumTk_nil]
    have ihapp := ih (⟨st.items ++ [⟨c, p, now, estimateTokens c⟩], st.maxTokens⟩ : CMState)
      (now + 1) (by simpa [hsum] using (by omega : sumTk st.items + estimateTokens c +
        (rest.map (fun a => estimateTokens a.1)).sum ≤ st.maxTokens))
    refine ⟨?_, ?_, ?_⟩
    · intro b hb
      simp only [addSeq, hstate] at hb
      rcases List.mem_cons.1 hb with hb | hb
      · exact hb
      · exact ihapp.1 b hb
    · simp only [addSeq, hstate]
      exact ihapp.2.1
    · simp only [addSeq, hstate, List.map_cons, List.sum_cons]
      rw [ihapp.2.2, hsum]
      omega

/-- C4: a batch of `addItem` calls whose total estimated cost fits the
ceiling is accepted in full, and after any sequence of `addItem`,
`compress` and `clear` operations the tracked total equals the sum of the
retained items' token costs and never exceeds the ceiling. -/
theorem C4_theorem :
    (∀ (adds : List (String × Nat)) (M now : Nat),
      (adds.map (fun a => estimateTokens a.1)).sum ≤ M →
      ∀ b ∈ (addSeq (CMState.new M) now adds).2, b = true) ∧
    (∀ (ops : List CMOp) (M now : Nat),
      getCurrentTokens (runOps (CMState.new M) now ops) =
        sumTk (runOps (CMState.new M) now ops).items ∧
      getCurrentTokens (runOps (CMState.new M) now ops) ≤ M) := by
  constructor
  · intro adds M now h
    exact (addSeq_all adds (CMState.new M) now (by simpa [CMState.new, sumTk] using h)).1
  · intro ops M now
    have hinv := runOps_invariant M ops (CMState.new M) now rfl
      (by simp [CMState.new, sumTk])
    rw [getCurrentTokens_eq]
    exact ⟨rfl, hinv.2⟩

/-- C4, witness: both parts of the theorem applied at a concrete batch and
a concrete operation sequence (ceiling 10). -/
theorem C4_witness :
    (∀ b ∈ (addSeq (CMState.new 10) 0 [("aaaa", HIGH), ("bb", LOW)]).2, b = true) ∧
    getCurrentTokens
        (runOps (CMState.new 10) 0 [CMOp.add "aaaa" HIGH, CMOp.compressOp]) ≤ 10 :=
  ⟨C4_theorem.1 [("aaaa", HIGH), ("bb", LOW)] 10 0 (by decide),
   (C4_theorem.2 [CMOp.add "aaaa" HIGH, CMOp.compressOp] 10 0).2⟩

/-- The compaction contract, modelled from the amended claim's words:
scanning the (priority desc, recency desc)-sorted items in order with a
running total, each item is retained when it fits the remaining 70%-budget
and discarded otherwise, the scan continuing either way. -/
inductive GreedyKeeps (target : Nat) : Nat → List ContextItem → List ContextItem → Prop
  | nil (cur : Nat) : GreedyKeeps target cur [] []
  | keep {cur : Nat} {it : ContextItem} {rest kept : List ContextItem} :
      cur + it.tokens ≤ target →
      GreedyKeeps target (cur + it.tokens) rest kept →
      GreedyKeeps target cur (it :: rest) (it :: kept)
  | skip {cur : Nat} {it : ContextItem} {rest kept : List ContextItem} :
      ¬ cur + it.tokens ≤ target →
      GreedyKeeps target cur rest kept →
      GreedyKeeps target cur (it :: rest) kept

lemma greedyKeep_keeps (target : Nat) :
    ∀ (l : List ContextItem) (cur : Nat),
      GreedyKeeps target cur l (greedyKeep target cur l) := by
  intro l
  induction l with
  | nil => intro cur; exact GreedyKeeps.nil cur
  | cons it rest ih =>
    intro cur
    by_cases hfit : cur + it.tokens ≤ target
    · simpa [greedyKeep, if_pos hfit] using GreedyKeeps.keep hfit (ih (cur + it.tokens))
    · simpa [greedyKeep, if_neg hfit] using GreedyKeeps.skip hfit (ih cur)

/-- C5, counterexample: ceiling 21 (compaction budget 14), one HIGH item of
15 tokens and one LOW item of 3 tokens.  `compress` retains exactly the LOW
item: the 15-token head of the sorted order is skipped but the scan
continues, so the retained items are NOT a prefix of the sorted order (the
longest fitting prefix is the empty one). -/
theorem C5_counterexample :
    (compress ((addItem ((addItem (CMState.new 21)
          (String.mk (List.replicate 60 'a')) HIGH 0).1)
          (String.mk (List.replicate 12 'b')) LOW 1).1)).items =
      [⟨String.mk (List.replicate 12 'b'), LOW, 1, 3⟩] ∧
    ¬ ∃ n, (compress ((addItem ((addItem (CMState.new 21)
          (String.mk (List.replicate 60 'a')) HIGH 0).1)
          (String.mk (List.replicate 12 'b')) LOW 1).1)).items =
        (stableSort descLe ((addItem ((addItem (CMState.new 21)
          (String.mk (List.replicate 60 'a')) HIGH 0).1)
          (String.mk (List.replicate 12 'b')) LOW 1).1).items).take n := by
  constructor
  · decide
  · rintro ⟨n, hn⟩
    have hB : (compress ((addItem ((addItem (CMState.new 21)
          (String.mk (List.replicate 60 'a')) HIGH 0).1)
          (String.mk (List.replicate 12 'b')) LOW 1).1)).items =
        [⟨String.mk (List.replicate 12 'b'), LOW, 1, 3⟩] := by decide
    have hs : stableSort descLe ((addItem ((addItem (CMState.new 21)
          (String.mk (List.replicate 60 'a')) HIGH 0).1)
          (String.mk (List.replicate 12 'b')) LOW 1).1).items =
        [⟨String.mk (List.replicate 60 'a'), HIGH, 0, 15⟩,
         ⟨String.mk (List.replicate 12 'b'), LOW, 1, 3⟩] := by decide
    rw [hB, hs] at hn
    cases n with
    | zero => exact absurd hn (by decide)
    | succ n =>
      rw [List.take_succ_cons] at hn
      injection hn with h1 _
      exact absurd h1 (by decide)

/-- C5, amended: after `compress` the retained items are the greedy
selection over the (priority desc, recency desc) stable-sorted items —
each item in scan order is kept exactly when it fits the remaining
70%-of-ceiling budget, and skipped items are discarded while the scan
continues — hence a sublist of the sorted order whose total cost fits the
compaction budget (but not necessarily a prefix of it). -/
theorem C5_amended (st : CMState) :
    GreedyKeeps (compressTarget st.maxTokens) 0 (stableSort descLe st.items)
      (compress st).items ∧
    (compress st).items.Sublist (stableSort descLe st.items) ∧
    sumTk (compress st).items ≤ compressTarget st.maxTokens ∧
    compressTarget st.maxTokens ≤ st.maxTokens := by
  refine ⟨greedyKeep_keeps _ _ 0, greedyKeep_sublist _ _ 0, ?_, compressTarget_le _⟩
  simpa using greedyKeep_sum (compressTarget st.maxTokens)
    (stableSort descLe st.items) 0 (Nat.zero_le _)


/-! ## Approval system (`src/security/approval.ts`) -/

/-- The `ApprovalCategory` union of `src/tool.ts`. -/
inductive ApprovalCategory
  | read
  | write
  | command
  | network
deriving DecidableEq, Repr

/-- A JS value that the source treats as a boolean: either a genuine
boolean, or a `Promise` that will resolve to a boolean.  A per-tool
approval predicate may be `async` (`src/tool.ts` declares
`needsApproval?: (context) => Promise<boolean> | boolean`), in which case
calling it yields the Promise object, not its resolved value. -/
inductive JsBoolish
  | bool (b : Bool)
  | promise (resolved : Bool)
deriving DecidableEq, Repr

/-- JS truthiness of such a value: a Promise object is always truthy. -/
def JsBoolish.truthy : JsBoolish → Bool
  | .bool b => b
  | .promise _ => true

/-- The `ApprovalMode` enum of `src/config.ts`. -/
inductive ApprovalMode
  | STRICT
  | DEFAULT
  | AUTO_EDIT
  | YOLO
deriving DecidableEq, Repr

/-- The `ApprovalContext` passed to a per-tool predicate (`src/tool.ts`);
`params` carries the serialised parameters, the empty extra `context`
object is omitted. -/
structure ApprovalContext where
  toolName : String
  params : String
  approvalMode : ApprovalMode
deriving Repr

/-- `ToolApprovalInfo` of `src/tool.ts`: a declared category and an
optional (possibly async) per-invocation predicate. -/
structure ToolApprovalInfo where
  category : ApprovalCategory
  needsApproval : Option (ApprovalContext → JsBoolish)

/-- The slice of a `Tool` (`src/tool.ts`) that the approval system reads. -/
structure Tool where
  name : String
  approval : Option ToolApprovalInfo

/-- `tool.approval?.category === 'read'` (an absent `approval` compares
unequal to `'read'`). -/
def catIsRead (tool : Tool) : Bool :=
  match tool.approval with
  | some info => info.category = ApprovalCategory.read
  | none => false

/-- `ApprovalSystem.needsApproval`.  The `DEFAULT` branch calls a declared
predicate and returns its value through the source's unawaited
`as boolean` cast, so an async predicate's Promise object is returned
as-is. -/
def needsApproval (mode : ApprovalMode) (tool : Tool) (params : String) : JsBoolish :=
  match mode with
  | .YOLO => .bool false
  | .AUTO_EDIT => .bool (!catIsRead tool)
  | .STRICT => .bool (!catIsRead tool)
  | .DEFAULT =>
    if catIsRead tool then .bool false
    else
      match tool.approval.bind (fun info => info.needsApproval) with
      | some pred => pred ⟨tool.name, params, ApprovalMode.DEFAULT⟩
      | none =>
        match tool.approval with
        | some info =>
          .bool (info.category = ApprovalCategory.write ∨
                 info.category = ApprovalCategory.command)
        | none => .bool false

/-- `ApprovalSystem.requestApproval` resolves to `true` in every mode. -/
def requestApproval (mode : ApprovalMode) (tool : Tool) (params : String) : Bool :=
  match mode with
  | .YOLO => true
  | _ => true

/-- The `run_command` (bash) tool of `src/tools/bash.ts` as the approval
system sees it at the safe command `"ls"`: declared category `command`
with the async predicate `async (context) => isHighRiskCommand(...)`,
which at `"ls"` (no dangerous substring, no high-risk pattern) resolves to
`false` — hence a Promise resolving to `false`. -/
def bashToolAtLs : Tool :=
  ⟨"run_command", some ⟨ApprovalCategory.command,
    some (fun _ => JsBoolish.promise false)⟩⟩

/-- C8: under `STRICT`, every tool with a declared non-read category needs
approval whatever predicate it registers (first three conjuncts); under
`DEFAULT` ("standard") a declared synchronous predicate's boolean is
returned verbatim (fourth conjunct); but for an asynchronous predicate the
source returns the unawaited Promise through its `as boolean` cast, so for
the bash tool at the safe command `"ls"` — whose predicate resolves to
`false` — `needsApproval` yields a truthy Promise instead of the
predicate's decision `false` (remaining conjuncts, exhibiting the bug). -/
theorem C8_theorem :
    (∀ (name params : String) (pred : Option (ApprovalContext → JsBoolish)),
      needsApproval ApprovalMode.STRICT ⟨name, some ⟨ApprovalCategory.write, pred⟩⟩ params =
        JsBoolish.bool true) ∧
    (∀ (name params : String) (pred : Option (ApprovalContext → JsBoolish)),
      needsApproval ApprovalMode.STRICT ⟨name, some ⟨ApprovalCategory.command, pred⟩⟩ params =
        JsBoolish.bool true) ∧
    (∀ (name params : String) (pred : Option (ApprovalContext → JsBoolish)),
      needsApproval ApprovalMode.STRICT ⟨name, some ⟨ApprovalCategory.network, pred⟩⟩ params =
        JsBoolish.bool true) ∧
    (∀ (name params : String) (b : Bool),
      needsApproval ApprovalMode.DEFAULT
          ⟨name, some ⟨ApprovalCategory.command, some (fun _ => JsBoolish.bool b)⟩⟩ params =
        JsBoolish.bool b) ∧
    needsApproval ApprovalMode.DEFAULT bashToolAtLs "ls" = JsBoolish.promise false ∧
    (needsApproval ApprovalMode.DEFAULT bashToolAtLs "ls").truthy = true ∧
    needsApproval ApprovalMode.DEFAULT bashToolAtLs "ls" ≠ JsBoolish.bool false := by
  refine ⟨?_, ?_, ?_, ?_, by decide, by decide, by decide⟩
  · intro name params pred; rfl
  · intro name params pred; rfl
  · intro name params pred; rfl
  · intro name params b; rfl


/-! ## ReAct reasoning loop (`src/reasoning/react.ts`) -/

deriving instance DecidableEq for Except

/-- Decimal rendering of a natural number (used for the
`Error in step N:` wrapper); structural so concrete runs reduce. -/
def natToStrGo : Nat → Nat → List Char
  | 0, _ => []
  | fuel + 1, n =>
    if n < 10 then [Char.ofNat (48 + n)]
    else natToStrGo fuel (n / 10) ++ [Char.ofNat (48 + n % 10)]

/-- Decimal rendering of a natural number. -/
def natToStr (n : Nat) : String :=
  String.mk (natToStrGo (n + 1) n)

/-- A structured tool-call request returned by the model; `args` carries
the serialised argument object (the source serialises `toolCall.args` with
`JSON.stringify` before dispatch; the model is parameterised directly over
that serialised form). -/
structure ToolCallReq where
  toolCallId : String
  toolName : String
  args : String
deriving DecidableEq, Repr

/-- A model response: generated text plus zero or more tool calls. -/
structure LLMResp where
  text : String
  toolCalls : List ToolCallReq
deriving DecidableEq, Repr

/-- Outcome of a single `generateText` call: a response or a thrown error
(identified by its message, as the source classifies errors solely by
message text). -/
inductive CallOutcome
  | ok (r : LLMResp)
  | err (msg : String)

/-- The retry classifier of `generateTextWithRetry`: an error is
transient-network iff its message contains one of three signatures. -/
def isNetworkError (msg : String) : Bool :=
  strContains msg "Failed to process successful response" ||
    strContains msg "SocketError" ||
    strContains msg "other side closed"

/-- The final-answer marker. -/
def finalMarker : String := "FINAL ANSWER:"

/-- JS falsiness of a string (`!text`): true exactly on the empty string. -/
def jsFalsyStr (s : String) : Bool :=
  s.data.isEmpty

/-- The retry loop of `generateTextWithRetry`.  The model endpoint is a
function from the global call index to that call's outcome; the loop
returns the result (or propagated error), the next call index, and the
list of backoff delays actually waited (each `2 ^ attempt * 1000` ms).
`fuel` is `maxRetries - attempt`; exhaustion yields the source's
`Max retries exceeded` error. -/
def gtwrGo (llm : Nat → CallOutcome) (maxRetries : Nat) :
    Nat → Nat → Nat → Except String LLMResp × Nat × List Nat
  | _, 0, callIdx => (.error "Max retries exceeded", callIdx, [])
  | attempt, fuel + 1, callIdx =>
    match llm callIdx with
    | .ok r => (.ok r, callIdx + 1, [])
    | .err m =>
      if isNetworkError m && !(attempt == maxRetries - 1) then
        let rec' := gtwrGo llm maxRetries (attempt + 1) fuel (callIdx + 1)
        (rec'.1, rec'.2.1, (2 ^ attempt * 1000) :: rec'.2.2)
      else (.error m, callIdx + 1, [])

/-- `ReActAgent.generateTextWithRetry`. -/
def generateTextWithRetry (llm : Nat → CallOutcome) (maxRetries callIdx : Nat) :
    Except String LLMResp × Nat × List Nat :=
  gtwrGo llm maxRetries 0 maxRetries callIdx

/-- Content of a conversation message (`ConversationState`). -/
inductive MsgContent
  | text (s : String)
  | assistantCalls (text : Option String) (calls : List ToolCallReq)
  | toolResult (id name result : String)
deriving DecidableEq, Repr

/-- A role-tagged conversation message. -/
structure Msg where
  role : String
  content : MsgContent
deriving DecidableEq, Repr

/-- A `ReasoningStep` trace record (`src/reasoning/types.ts`); the `Date`
timestamp is not modelled. -/
structure HistRec where
  thought : Option String
  action : Option String
  observation : Option String
deriving DecidableEq, Repr

/-- Observable events of one run, in order: the observer callbacks
(`onStep`, `onThought`, `onToolCall`, `onToolResult`), each executor
dispatch through the registry (`invokeEv`), and — so that the gating
contract can be stated at all — a constructor for an approval request.
The loop's source contains no call into the approval system, so no
execution step below ever emits `approvalReq`. -/
inductive Event
  | stepNotif (cur total : Nat)
  | thoughtNotif (t : String)
  | toolCallNotif (name args : String)
  | invokeEv (name args id : String)
  | toolResultNotif (name obs : String)
  | approvalReq (name : String)
deriving DecidableEq, Repr

/-- Is this event an approval request? -/
def Event.isApproval : Event → Bool
  | .approvalReq _ => true
  | _ => false

/-- Is this event an executor dispatch? -/
def Event.isInvoke : Event → Bool
  | .invokeEv _ _ _ => true
  | _ => false

/-- The mutable state threaded through one `run`: conversation messages,
the trace, the emitted events, and the model call counter. -/
structure LoopSt where
  msgs : List Msg
  hist : List HistRec
  events : List Event
  callIdx : Nat
deriving DecidableEq, Repr

/-- Sequential execution of one response's tool calls: notification,
registry dispatch (`tools.invoke`, whose result is supplied by the
`invoke` oracle — the registry's own implementation, `src/tool.ts`, never
throws and yields an observation string), result notification, trace
record, and a tool-role turn. -/
def execCalls (invoke : String → String → String) :
    List ToolCallReq → LoopSt → LoopSt
  | [], st => st
  | c :: rest, st =>
    let obs := invoke c.toolName c.args
    execCalls invoke rest
      { st with
        events := st.events ++
          [Event.toolCallNotif c.toolName c.args,
           Event.invokeEv c.toolName c.args c.toolCallId,
           Event.toolResultNotif c.toolName obs],
        hist := st.hist ++
          [⟨none, some (c.toolName ++ "(" ++ c.args ++ ")"), some obs⟩],
        msgs := st.msgs ++ [⟨"tool", MsgContent.toolResult c.toolCallId c.toolName obs⟩] }

/-- The assistant turn recorded when a response carries tool calls. -/
def assistantMsg (r : LLMResp) : Msg :=
  ⟨"assistant",
   MsgContent.assistantCalls (if jsFalsyStr r.text then none else some r.text) r.toolCalls⟩

/-- The continuation prompt appended after each non-final step. -/
def continuation : String := "Continue or provide FINAL ANSWER: if done."

/-- The step loop of `ReActAgent.run` (`fuel = maxSteps - step`).  Per
step: step notification; `generateTextWithRetry`; errors are wrapped as
`Error in step N: ...` (1-indexed) and propagated; a response with neither
text nor tool calls is a step error; a text containing the final marker
returns `split(marker)[1].trim()` with one terminal trace record, taking
priority over any tool calls in the same response; otherwise the thought
is recorded, tool calls (if any) are executed sequentially, and a
continuation prompt is appended. -/
def reactGo (llm : Nat → CallOutcome) (invoke : String → String → String)
    (maxSteps maxRetries : Nat) : Nat → Nat → LoopSt → Except String String × LoopSt
  | _, 0, st => (.ok "Task incomplete: maximum steps reached", st)
  | step, fuel + 1, st =>
    let st0 := { st with events := st.events ++ [Event.stepNotif (step + 1) maxSteps] }
    let g := generateTextWithRetry llm maxRetries st.callIdx
    let st1 := { st0 with callIdx := g.2.1 }
    match g.1 with
    | .error m =>
      (.error ("Error in step " ++ natToStr (step + 1) ++ ": " ++ m), st1)
    | .ok r =>
      if jsFalsyStr r.text && r.toolCalls.isEmpty then
        (.error ("Error in step " ++ natToStr (step + 1) ++
          ": No text in response and no tool calls"), st1)
      else if !jsFalsyStr r.text && strContains r.text finalMarker then
        let answer := jsTrim ((jsSplit r.text finalMarker).getD 1 "")
        (.ok answer,
         { st1 with
            events := st1.events ++ [Event.thoughtNotif ("Task completed: " ++ answer)],
            hist := st1.hist ++ [⟨some "Task completed", none, some answer⟩] })
      else
        let st2 :=
          if !jsFalsyStr r.text then
            { st1 with
                events := st1.events ++ [Event.thoughtNotif r.text],
                hist := st1.hist ++ [⟨some r.text, none, none⟩] }
          else st1
        if !r.toolCalls.isEmpty then
          let st3 := { st2 with msgs := st2.msgs ++ [assistantMsg r] }
          let st4 := execCalls invoke r.toolCalls st3
          let st5 := { st4 with msgs := st4.msgs ++ [⟨"user", MsgContent.text continuation⟩] }
          reactGo llm invoke maxSteps maxRetries (step + 1) fuel st5
        else
          let st5 := { st2 with msgs := st2.msgs ++
            [⟨"assistant", MsgContent.text r.text⟩,
             ⟨"user", MsgContent.text continuation⟩] }
          reactGo llm invoke maxSteps maxRetries (step + 1) fuel st5

/-- The system prompt of `ReActAgent.run`. -/
def systemPrompt : String :=
  "You are an AI coding assistant that solves tasks using available tools.\n\nFor each step:\n1. Think about what to do next\n2. Use tools to gather information or make changes\n3. Observe results and continue\n\nWhen done, respond with \"FINAL ANSWER:\" followed by your conclusion."

/-- `ReActAgent.run`: fresh history, the initial user message, then the
step loop. -/
def reactRun (llm : Nat → CallOutcome) (invoke : String → String → String)
    (task : String) (maxSteps maxRetries : Nat) : Except String String × LoopSt :=
  reactGo llm invoke maxSteps maxRetries 0 maxSteps
    ⟨[⟨"user", MsgContent.text
        (systemPrompt ++ "\n\nTask: " ++ task ++ "\n\nSolve this step by step.")⟩],
     [], [], 0⟩


/-! ### Lemmas about the loop -/

/-- One successful model call returns immediately with no backoff. -/
lemma gtwr_ok (llm : Nat → CallOutcome) (maxRetries callIdx : Nat) (r : LLMResp)
    (h1 : 1 ≤ maxRetries) (h2 : llm callIdx = CallOutcome.ok r) :
    generateTextWithRetry llm maxRetries callIdx = (.ok r, callIdx + 1, []) := by
  cases maxRetries with
  | zero => omega
  | succ k => simp [generateTextWithRetry, gtwrGo, h2]

/-- A string containing a non-empty pattern is not the empty string. -/
lemma strContains_not_falsy {s pat : String} (hp : pat.data ≠ [])
    (h : strContains s pat = true) : jsFalsyStr s = false := by
  cases hs : s.data with
  | cons c rest => simp [jsFalsyStr, hs]
  | nil =>
    exfalso
    unfold strContains at h
    rw [hs] at h
    cases hpd : pat.data with
    | nil => exact hp hpd
    | cons q qs =>
      rw [hpd] at h
      simp [charsContains, charsHasPre] at h

/-- Tool-call execution emits no approval request. -/
lemma execCalls_approval (invoke : String → String → String) :
    ∀ (calls : List ToolCallReq) (st : LoopSt),
      ((execCalls invoke calls st).events.countP Event.isApproval) =
        st.events.countP Event.isApproval := by
  intro calls
  induction calls with
  | nil => intro st; rfl
  | cons c rest ih =>
    intro st
    rw [execCalls, ih]
    simp [List.countP_append, Event.isApproval]

/-- The step loop emits no approval request. -/
lemma reactGo_approval (llm : Nat → CallOutcome) (invoke : String → String → String)
    (maxSteps maxRetries : Nat) :
    ∀ (fuel step : Nat) (st : LoopSt),
      ((reactGo llm invoke maxSteps maxRetries step fuel st).2.events.countP
          Event.isApproval) =
        st.events.countP Event.isApproval := by
  intro fuel
  induction fuel with
  | zero => intro step st; rfl
  | succ fuel ih =>
    intro step st
    simp only [reactGo]
    cases hg : (generateTextWithRetry llm maxRetries st.callIdx).1 with
    | error m =>
      simp [hg, List.countP_append, Event.isApproval]
    | ok r =>
      simp only [hg]
      by_cases hempty : (jsFalsyStr r.text && r.toolCalls.isEmpty) = true
      · simp [hempty, List.countP_append, Event.isApproval]
      · by_cases hfin : (!jsFalsyStr r.text && strContains r.text finalMarker) = true
        · simp [hempty, hfin, List.countP_append, Event.isApproval]
        · by_cases htc : r.toolCalls.isEmpty = true
          · by_cases htext : jsFalsyStr r.text = true
            · simp [hempty, hfin, htc, htext, ih, List.countP_append, Event.isApproval]
            · have htextf : jsFalsyStr r.text = false := by
                cases hv : jsFalsyStr r.text
                · rfl
                · exact absurd hv htext
              have hsc : strContains r.text finalMarker = false := by
                cases hv : strContains r.text finalMarker
                · rfl
                · exact absurd (by simp [htextf, hv]) hfin
              simp [hempty, htc, htextf, hsc, ih, List.countP_append, Event.isApproval]
          · by_cases htext : jsFalsyStr r.text = true
            · simp [hempty, hfin, htc, htext, ih, execCalls_approval,
                List.countP_append, Event.isApproval]
            · have htextf : jsFalsyStr r.text = false := by
                cases hv : jsFalsyStr r.text
                · rfl
                · exact absurd hv htext
              have hsc : strContains r.text finalMarker = false := by
                cases hv : strContains r.text finalMarker
                · rfl
                · exact absurd (by simp [htextf, hv]) hfin
              simp [hempty, htc, htextf, hsc, ih, execCalls_approval,
                List.countP_append, Event.isApproval]

/-- C1, counterexample: a run in which the model requests one call of the
`write_file` tool — which under both the `DEFAULT` and `STRICT` policies
requires approval — executes that call through the registry
(`invokeEv` is in the trace) while the approval gate is never consulted
(zero approval events): the claimed gating does not happen. -/
theorem C1_counterexample :
    Event.invokeEv "write_file" "x" "c1" ∈
      (reactRun
        (fun n => if n = 0
          then CallOutcome.ok ⟨"Using the write tool", [⟨"c1", "write_file", "x"⟩]⟩
          else CallOutcome.ok ⟨"FINAL ANSWER: done", []⟩)
        (fun _ _ => "ok") "t" 2 3).2.events ∧
    ((reactRun
        (fun n => if n = 0
          then CallOutcome.ok ⟨"Using the write tool", [⟨"c1", "write_file", "x"⟩]⟩
          else CallOutcome.ok ⟨"FINAL ANSWER: done", []⟩)
        (fun _ _ => "ok") "t" 2 3).2.events.countP Event.isApproval) = 0 ∧
    (needsApproval ApprovalMode.DEFAULT
        ⟨"write_file", some ⟨ApprovalCategory.write, none⟩⟩ "x").truthy = true ∧
    (needsApproval ApprovalMode.STRICT
        ⟨"write_file", some ⟨ApprovalCategory.write, none⟩⟩ "x").truthy = true := by
  refine ⟨by decide, by decide, by decide, by decide⟩

/-- C1, amended: the reasoning loop executes every model-requested tool
call by dispatching directly through the tool registry; it never consults
the approval gate — no run, whatever the model, registry or task, ever
emits an approval request (the approval system exists in the code base but
is not wired into the loop). -/
theorem C1_amended (llm : Nat → CallOutcome) (invoke : String → String → String)
    (task : String) (maxSteps maxRetries : Nat) :
    ((reactRun llm invoke task maxSteps maxRetries).2.events.countP Event.isApproval) = 0 := by
  unfold reactRun
  rw [reactGo_approval]
  rfl

/-- C6, counterexample: when the marker occurs twice, the loop returns the
text strictly between the two occurrences (`split(marker)[1]`), not
"everything after the marker, trimmed" — on
`"FINAL ANSWER: A FINAL ANSWER: B"` it returns `"A"`, while everything
after the (first) marker, trimmed, is `"A FINAL ANSWER: B"`.  The terminal
record and the suppression of the same response's tool calls do hold. -/
theorem C6_counterexample :
    (reactRun
        (fun _ => CallOutcome.ok
          ⟨"FINAL ANSWER: A FINAL ANSWER: B", [⟨"c1", "write_file", "x"⟩]⟩)
        (fun _ _ => "ok") "t" 30 3).1 = Except.ok "A" ∧
    jsTrim (String.intercalate finalMarker
        ((jsSplit "FINAL ANSWER: A FINAL ANSWER: B" finalMarker).drop 1)) =
      "A FINAL ANSWER: B" ∧
    (reactRun
        (fun _ => CallOutcome.ok
          ⟨"FINAL ANSWER: A FINAL ANSWER: B", [⟨"c1", "write_file", "x"⟩]⟩)
        (fun _ _ => "ok") "t" 30 3).1 ≠ Except.ok "A FINAL ANSWER: B" ∧
    (reactRun
        (fun _ => CallOutcome.ok
          ⟨"FINAL ANSWER: A FINAL ANSWER: B", [⟨"c1", "write_file", "x"⟩]⟩)
        (fun _ _ => "ok") "t" 30 3).2.hist =
      [⟨some "Task completed", none, some "A"⟩] ∧
    ((reactRun
        (fun _ => CallOutcome.ok
          ⟨"FINAL ANSWER: A FINAL ANSWER: B", [⟨"c1", "write_file", "x"⟩]⟩)
        (fun _ _ => "ok") "t" 30 3).2.events.countP Event.isInvoke) = 0 := by
  refine ⟨by decide, by decide, by decide, by decide, by decide⟩

/-- C6, amended: whenever a step's model response text contains the
final-answer marker, the loop immediately returns
`split(marker)[1].trim()` — the segment between the first and second
occurrences of the marker (everything after it when it occurs once),
trimmed — appends exactly one terminal trace record, emits only the step
and thought notifications, and executes none of the tool calls present in
the same response; detection takes priority over tool execution. -/
theorem C6_amended (llm : Nat → CallOutcome) (invoke : String → String → String)
    (maxSteps maxRetries step fuel : Nat) (st : LoopSt) (r : LLMResp)
    (hmr : 1 ≤ maxRetries)
    (hllm : llm st.callIdx = CallOutcome.ok r)
    (hmark : strContains r.text finalMarker = true) :
    reactGo llm invoke maxSteps maxRetries step (fuel + 1) st =
      (Except.ok (jsTrim ((jsSplit r.text finalMarker).getD 1 "")),
       { msgs := st.msgs,
         hist := st.hist ++ [⟨some "Task completed", none,
           some (jsTrim ((jsSplit r.text finalMarker).getD 1 ""))⟩],
         events := st.events ++ [Event.stepNotif (step + 1) maxSteps,
           Event.thoughtNotif
             ("Task completed: " ++ jsTrim ((jsSplit r.text finalMarker).getD 1 ""))],
         callIdx := st.callIdx + 1 }) := by
  have hfal : jsFalsyStr r.text = false :=
    strContains_not_falsy (by decide) hmark
  unfold reactGo
  rw [gtwr_ok llm maxRetries st.callIdx r hmr hllm]
  simp [hfal, hmark]

/-- C6, witness: the amended theorem applied at a concrete final-answer
response. -/
theorem C6_witness :
    (reactGo (fun _ => CallOutcome.ok ⟨"FINAL ANSWER: yes", []⟩)
      (fun _ _ => "") 5 3 0 (3 + 1) ⟨[], [], [], 0⟩).1 = Except.ok "yes" := by
  rw [C6_amended (fun _ => CallOutcome.ok ⟨"FINAL ANSWER: yes", []⟩)
    (fun _ _ => "") 5 3 0 3 ⟨[], [], [], 0⟩ ⟨"FINAL ANSWER: yes", []⟩
    (by decide) rfl (by decide)]
  decide

/-- C7: the retry logic propagates a non-transient error on its first
occurrence (first conjunct, for every model and any call position); with
the default ceiling of 3 attempts, a model whose first two calls raise a
transient network error and whose third succeeds is retried with backoff
delays `1000 = base * 2 ^ 0` and `2000 = base * 2 ^ 1` and then succeeds
(second conjunct); and a full `run` against that model completes
successfully (third conjunct). -/
theorem C7_theorem :
    (∀ (llm : Nat → CallOutcome) (maxRetries callIdx : Nat) (msg : String),
      1 ≤ maxRetries → llm callIdx = CallOutcome.err msg → isNetworkError msg = false →
      generateTextWithRetry llm maxRetries callIdx = (.error msg, callIdx + 1, [])) ∧
    generateTextWithRetry
        (fun n => if n ≤ 1
          then CallOutcome.err "fetch failed: SocketError: other side closed"
          else CallOutcome.ok ⟨"FINAL ANSWER: done", []⟩) 3 0 =
      (.ok ⟨"FINAL ANSWER: done", []⟩, 3, [2 ^ 0 * 1000, 2 ^ 1 * 1000]) ∧
    (reactRun
        (fun n => if n ≤ 1
          then CallOutcome.err "fetch failed: SocketError: other side closed"
          else CallOutcome.ok ⟨"FINAL ANSWER: done", []⟩)
        (fun _ _ => "") "task" 30 3).1 = Except.ok "done" := by
  refine ⟨?_, by decide, by decide⟩
  intro llm maxRetries callIdx msg h1 h2 h3
  cases maxRetries with
  | zero => omega
  | succ k => simp [generateTextWithRetry, gtwrGo, h2, h3]

/-- C7, witness: the first conjunct applied to a model that throws a
non-network error at once, together with the closed conjuncts. -/
theorem C7_witness :
    generateTextWithRetry (fun _ => CallOutcome.err "boom") 3 0 =
      (.error "boom", 1, []) :=
  C7_theorem.1 (fun _ => CallOutcome.err "boom") 3 0 "boom"
    (by decide) rfl (by decide)


/-! ## Agent facade (`src/agent.ts`) -/

/-- The metadata of an `AgentResult`.  `duration` is wall-clock time; it is
supplied as a parameter. -/
structure AgentMeta where
  turnsCount : Nat
  toolCallsCount : Nat
  duration : Nat
deriving DecidableEq, Repr

/-- The result envelope of `Agent.run`. -/
structure AgentResult where
  success : Bool
  result : String
  metadata : AgentMeta
deriving DecidableEq, Repr

/-- The facade's own state: its `history` array.  The constructor sets it
to `[]`, and no method of the class ever appends to it. -/
structure AgentState where
  history : List Msg
deriving DecidableEq, Repr

/-- `new Agent(config)`. -/
def newAgent : AgentState := ⟨[]⟩

/-- `Agent.executeWithMode`: every arm of the `switch` (REACT, and the
not-yet-implemented PLAN_SOLVE and REFLECTION, which log a warning and
fall back) constructs `new ReActAgent(llm, tools, maxSteps, 3, callbacks)`
and runs it. -/
def executeWithMode (llm : Nat → CallOutcome) (invoke : String → String → String)
    (task : String) (maxSteps : Nat) : ReasoningMode → Except String String
  | .REACT => (reactRun llm invoke task maxSteps 3).1
  | .PLAN_SOLVE => (reactRun llm invoke task maxSteps 3).1
  | .REFLECTION => (reactRun llm invoke task maxSteps 3).1

/-- `Agent.run`: select the reasoning mode (outside the `try`, but a pure
total computation), execute, and wrap the outcome: a successful value
verbatim with `success = true`, a thrown error as `success = false` with
`result` set to `"Error: "` followed by the error's message.  Either way
`turnsCount` is the (never-appended) history's length and
`toolCallsCount` is the literal `0`. -/
def agentRun (ag : AgentState) (llm : Nat → CallOutcome)
    (invoke : String → String → String) (task : String)
    (pref : Option ReasoningMode) (maxSteps duration : Nat) :
    AgentState × AgentResult :=
  let mode := selectMode task pref
  match executeWithMode llm invoke task maxSteps mode with
  | .ok r => (ag, ⟨true, r, ⟨ag.history.length, 0, duration⟩⟩)
  | .error m => (ag, ⟨false, "Error: " ++ m, ⟨ag.history.length, 0, duration⟩⟩)

/-- C9, counterexample: a model that throws a non-transient error makes
the loop raise `Error in step 1: boom`; `Agent.run` resolves (does not
reject) with `success = false`, but its `result` field is
`"Error: Error in step 1: boom"` — the thrown error's message with an
extra `"Error: "` prefix, not the message itself as claimed. -/
theorem C9_counterexample :
    executeWithMode (fun _ => CallOutcome.err "boom") (fun _ _ => "") "task" 2
        (selectMode "task" none) = Except.error "Error in step 1: boom" ∧
    (agentRun newAgent (fun _ => CallOutcome.err "boom") (fun _ _ => "") "task"
        none 2 5).2.success = false ∧
    (agentRun newAgent (fun _ => CallOutcome.err "boom") (fun _ _ => "") "task"
        none 2 5).2.result = "Error: Error in step 1: boom" ∧
    (agentRun newAgent (fun _ => CallOutcome.err "boom") (fun _ _ => "") "task"
        none 2 5).2.result ≠ "Error in step 1: boom" := by
  refine ⟨by decide, by decide, by decide, by decide⟩

/-- C9, amended: `Agent.run` never rejects — for every model, registry,
task, preference and ceiling it returns an envelope; `success = false`
exactly when an error escapes mode execution, in which case `result` is
the thrown error's message prefixed with `"Error: "`; a successful mode
execution is returned verbatim with `success = true`.  This is the only
externally visible failure contract of the facade. -/
theorem C9_amended (ag : AgentState) (llm : Nat → CallOutcome)
    (invoke : String → String → String) (task : String)
    (pref : Option ReasoningMode) (maxSteps duration : Nat) :
    (∀ m, executeWithMode llm invoke task maxSteps (selectMode task pref) =
        Except.error m →
      (agentRun ag llm invoke task pref maxSteps duration).2.success = false ∧
      (agentRun ag llm invoke task pref maxSteps duration).2.result = "Error: " ++ m) ∧
    (∀ r, executeWithMode llm invoke task maxSteps (selectMode task pref) =
        Except.ok r →
      (agentRun ag llm invoke task pref maxSteps duration).2.success = true ∧
      (agentRun ag llm invoke task pref maxSteps duration).2.result = r) ∧
    ((agentRun ag llm invoke task pref maxSteps duration).2.success = false ↔
      ∃ m, executeWithMode llm invoke task maxSteps (selectMode task pref) =
        Except.error m) := by
  refine ⟨?_, ?_, ?_⟩
  · intro m hm
    simp [agentRun, hm]
  · intro r hr
    simp [agentRun, hr]
  · constructor
    · intro hf
      cases he : executeWithMode llm invoke task maxSteps (selectMode task pref) with
      | ok r => simp [agentRun, he] at hf
      | error m => exact ⟨m, rfl⟩
    · rintro ⟨m, hm⟩
      simp [agentRun, hm]

/-- C9, witness: the amended theorem applied to a failing run and to a
successful run. -/
theorem C9_witness :
    ((agentRun newAgent (fun _ => CallOutcome.err "boom") (fun _ _ => "") "task"
        none 2 5).2.success = false ∧
      (agentRun newAgent (fun _ => CallOutcome.err "boom") (fun _ _ => "") "task"
        none 2 5).2.result = "Error: " ++ "Error in step 1: boom") ∧
    ((agentRun newAgent (fun _ => CallOutcome.ok ⟨"FINAL ANSWER: hi", []⟩)
        (fun _ _ => "") "task" none 2 5).2.success = true ∧
      (agentRun newAgent (fun _ => CallOutcome.ok ⟨"FINAL ANSWER: hi", []⟩)
        (fun _ _ => "") "task" none 2 5).2.result = "hi") :=
  ⟨(C9_amended newAgent (fun _ => CallOutcome.err "boom") (fun _ _ => "") "task"
      none 2 5).1 "Error in step 1: boom" (by decide),
   (C9_amended newAgent (fun _ => CallOutcome.ok ⟨"FINAL ANSWER: hi", []⟩)
      (fun _ _ => "") "task" none 2 5).2.1 "hi" (by decide)⟩

/-- C10: for every task and every outcome, the envelope returned by
`Agent.run` reports `toolCallsCount = 0` (a literal constant in the
source) and `turnsCount = 0` (the length of the facade's history, which
the constructor creates empty and no code path ever appends to), and the
facade state is returned unchanged — the reported counts never reflect
the run's actual turns or tool calls. -/
theorem C10_theorem (llm : Nat → CallOutcome) (invoke : String → String → String)
    (task : String) (pref : Option ReasoningMode) (maxSteps duration : Nat) :
    (agentRun newAgent llm invoke task pref maxSteps duration).2.metadata.toolCallsCount
        = 0 ∧
    (agentRun newAgent llm invoke task pref maxSteps duration).2.metadata.turnsCount
        = 0 ∧
    (agentRun newAgent llm invoke task pref maxSteps duration).1 = newAgent := by
  cases he : executeWithMode llm invoke task maxSteps (selectMode task pref) with
  | ok r => simp [agentRun, he, newAgent]
  | error m => simp [agentRun, he, newAgent]


/-! ### Order-theoretic facts about the sort model

These lemmas substantiate the `stableSort` model: with a transitive and
total comparator it produces a list sorted by that comparator, and (for
the eviction sort) items of equal priority keep their original relative
order — which is what "lowest-priority-first, ties oldest-first" and
"(priority desc, recency desc)" rest on. -/

lemma mem_insSorted (le : ContextItem → ContextItem → Bool) (x a : ContextItem)
    (l : List ContextItem) : a ∈ insSorted le x l ↔ a = x ∨ a ∈ l := by
  constructor
  · intro h
    have := (insSorted_perm le x l).mem_iff.1 h
    simpa using this
  · intro h
    apply (insSorted_perm le x l).mem_iff.2
    simpa using h

lemma insSorted_pairwise (le : ContextItem → ContextItem → Bool)
    (htrans : ∀ a b c, le a b = true → le b c = true → le a c = true)
    (htotal : ∀ a b, le a b = true ∨ le b a = true)
    (x : ContextItem) :
    ∀ (l : List ContextItem), l.Pairwise (fun a b => le a b = true) →
      (insSorted le x l).Pairwise (fun a b => le a b = true) := by
  intro l
  induction l with
  | nil => intro _; simp [insSorted]
  | cons y ys ih =>
    intro h
    rw [List.pairwise_cons] at h
    by_cases hle : le y x = true
    · rw [insSorted, if_pos hle]
      rw [List.pairwise_cons]
      refine ⟨?_, ih h.2⟩
      intro a ha
      rcases (mem_insSorted le x a ys).1 ha with rfl | ha
      · exact hle
      · exact h.1 a ha
    · rw [insSorted, if_neg hle]
      have hxy : le x y = true := (htotal x y).resolve_right (fun hc => hle hc)
      rw [List.pairwise_cons]
      refine ⟨?_, List.pairwise_cons.2 h⟩
      intro a ha
      rcases List.mem_cons.1 ha with rfl | ha
      · exact hxy
      · exact htrans x y a hxy (h.1 a ha)

lemma stableSort_pairwise (le : ContextItem → ContextItem → Bool)
    (htrans : ∀ a b c, le a b = true → le b c = true → le a c = true)
    (htotal : ∀ a b, le a b = true ∨ le b a = true)
    (l : List ContextItem) :
    (stableSort le l).Pairwise (fun a b => le a b = true) := by
  have h : ∀ (l acc : List ContextItem),
      acc.Pairwise (fun a b => le a b = true) →
      (l.foldl (fun acc x => insSorted le x acc) acc).Pairwise
        (fun a b => le a b = true) := by
    intro l
    induction l with
    | nil => intro acc h; simpa using h
    | cons x xs ih =>
      intro acc h
      exact ih (insSorted le x acc) (insSorted_pairwise le htrans htotal x acc h)
  exact h l [] (by simp)

lemma ascLe_trans (a b c : ContextItem) (h1 : ascLe a b = true) (h2 : ascLe b c = true) :
    ascLe a c = true := by
  simp only [ascLe, decide_eq_true_eq] at *
  omega

lemma ascLe_total (a b : ContextItem) : ascLe a b = true ∨ ascLe b a = true := by
  simp only [ascLe, decide_eq_true_eq]
  omega

lemma descLe_trans (a b c : ContextItem) (h1 : descLe a b = true)
    (h2 : descLe b c = true) : descLe a c = true := by
  unfold descLe at *
  by_cases hab : a.priority = b.priority
  · by_cases hbc : b.priority = c.priority
    · have hac : a.priority = c.priority := hab.trans hbc
      rw [if_pos hab] at h1
      rw [if_pos hbc] at h2
      rw [if_pos hac]
      simp only [decide_eq_true_eq] at *
      omega
    · rw [if_pos hab] at h1
      rw [if_neg hbc] at h2
      simp only [decide_eq_true_eq] at h1 h2
      have hacne : ¬ a.priority = c.priority := by omega
      rw [if_neg hacne]
      simp only [decide_eq_true_eq]
      omega
  · by_cases hbc : b.priority = c.priority
    · rw [if_neg hab] at h1
      rw [if_pos hbc] at h2
      simp only [decide_eq_true_eq] at h1
      have hacne : ¬ a.priority = c.priority := by omega
      rw [if_neg hacne]
      simp only [decide_eq_true_eq]
      omega
    · rw [if_neg hab] at h1
      rw [if_neg hbc] at h2
      simp only [decide_eq_true_eq] at h1 h2
      have hacne : ¬ a.priority = c.priority := by omega
      rw [if_neg hacne]
      simp only [decide_eq_true_eq]
      omega

lemma descLe_total (a b : ContextItem) : descLe a b = true ∨ descLe b a = true := by
  unfold descLe
  by_cases hab : a.priority = b.priority
  · rw [if_pos hab, if_pos hab.symm]
    simp only [decide_eq_true_eq]
    omega
  · rw [if_neg hab, if_neg (fun hc => hab hc.symm)]
    simp only [decide_eq_true_eq]
    omega

/-- The eviction sort is ascending in priority. -/
lemma stableSort_ascLe_sorted (l : List ContextItem) :
    (stableSort ascLe l).Pairwise (fun a b => a.priority ≤ b.priority) := by
  have := stableSort_pairwise ascLe ascLe_trans ascLe_total l
  exact this.imp (fun h => by simpa [ascLe] using h)

/-- The compaction sort is descending in priority with recency-descending
tie-break. -/
lemma stableSort_descLe_sorted (l : List ContextItem) :
    (stableSort descLe l).Pairwise (fun a b =>
      b.priority < a.priority ∨
        (a.priority = b.priority ∧ b.timestamp ≤ a.timestamp)) := by
  have := stableSort_pairwise descLe descLe_trans descLe_total l
  refine this.imp (fun {a b} h => ?_)
  simp only [descLe] at h
  by_cases hab : a.priority = b.priority
  · right
    rw [if_pos hab] at h
    exact ⟨hab, by simpa using h⟩
  · left
    rw [if_neg hab] at h
    simpa using h

/-- Inserting into an ascending-sorted list places the new element after
every element of its own priority class. -/
lemma insSorted_ascLe_filter (q : Nat) (x : ContextItem) :
    ∀ (acc : List ContextItem), acc.Pairwise (fun a b => ascLe a b = true) →
      (insSorted ascLe x acc).filter (fun it => it.priority == q) =
        (if x.priority == q
          then acc.filter (fun it => it.priority == q) ++ [x]
          else acc.filter (fun it => it.priority == q)) := by
  intro acc
  induction acc with
  | nil =>
    intro _
    by_cases hxq : (x.priority == q) = true
    · simp [insSorted, List.filter, hxq]
    · simp only [insSorted]
      rw [List.filter_cons]
      simp [hxq]
  | cons y ys ih =>
    intro hp
    rw [List.pairwise_cons] at hp
    by_cases hle : ascLe y x = true
    · rw [insSorted, if_pos hle, List.filter_cons]
      rw [ih hp.2]
      by_cases hyq : (y.priority == q) = true <;>
        by_cases hxq : (x.priority == q) = true <;>
        simp [hyq, hxq, List.filter_cons]
    · have hylt : x.priority < y.priority := by
        simp only [ascLe, decide_eq_true_eq] at hle
        omega
      rw [insSorted, if_neg hle]
      by_cases hxq : (x.priority == q) = true
      · have hxqn : x.priority = q := by simpa using hxq
        have hnone : ∀ a ∈ y :: ys, ¬ ((fun it => it.priority == q) a) = true := by
          intro a ha
          rcases List.mem_cons.1 ha with rfl | ha
          · simp only [beq_iff_eq]
            omega
          · have := hp.1 a ha
            simp only [ascLe, decide_eq_true_eq] at this
            simp only [beq_iff_eq]
            omega
        have h1 : (y :: ys).filter (fun it => it.priority == q) = [] := by
          rw [List.filter_eq_nil_iff]
          intro a ha
          simpa using hnone a ha
        rw [List.filter_cons]
        simp [hxq, h1]
      · rw [List.filter_cons]
        simp [hxq]

/-- Stability of the eviction sort: items of any fixed priority stay in
their original relative order, so equal-priority eviction candidates are
scanned oldest-first when the stored order is insertion order. -/
lemma stableSort_ascLe_stable (q : Nat) (l : List ContextItem) :
    (stableSort ascLe l).filter (fun it => it.priority == q) =
      l.filter (fun it => it.priority == q) := by
  have hfold : ∀ (l acc : List ContextItem),
      acc.Pairwise (fun a b => ascLe a b = true) →
      ((l.foldl (fun acc x => insSorted ascLe x acc) acc).filter
          (fun it => it.priority == q) =
        acc.filter (fun it => it.priority == q) ++
          l.filter (fun it => it.priority == q)) := by
    intro l
    induction l with
    | nil => intro acc h; simp
    | cons x xs ih =>
      intro acc h
      have hstep := ih (insSorted ascLe x acc)
        (insSorted_pairwise ascLe ascLe_trans ascLe_total x acc h)
      rw [List.foldl_cons, hstep, insSorted_ascLe_filter q x acc h, List.filter_cons]
      by_cases hxq : (x.priority == q) = true <;> simp [hxq]
  simpa using hfold l [] (by simp)

end Cogent
